import Mathlib

/-!
Verification of the Grocify ML service (src/ml_service/main.py).

Python strings are modelled as `List Char`; the string primitives used by the
service (`str.strip`, `str.lower`, `str.capitalize`, `str.split`,
`str.replace`, slicing) are embedded as executable Lean functions with the
same semantics (ASCII case mapping, which is what every string handled by the
service uses).  The runtime tokenizer data `SPECIAL_TOKENS` is a parameter
`toks : List LC` (the Python `set` is modelled as a list fixing one iteration
order).  The text generator is an oracle parameter `gen : LC → List LC`.
-/

namespace Grocify

abbrev LC := List Char

/-- The whitespace predicate of Python `str.strip` (ASCII range): space (32),
tab (9), newline (10), vertical tab (11), form feed (12), carriage return (13). -/
def pIsSpace (c : Char) : Bool :=
  c.toNat = 32 || (9 ≤ c.toNat && c.toNat ≤ 13)

/-- Python `s.strip()`: drop whitespace from both ends. -/
def pstrip (s : LC) : LC :=
  ((s.dropWhile pIsSpace).reverse.dropWhile pIsSpace).reverse

/-- Python `s.lower()` (ASCII). -/
def plower (s : LC) : LC := s.map Char.toLower

/-- Python `s.capitalize()` (ASCII): first char uppercased, rest lowercased. -/
def pcapitalize : LC → LC
  | [] => []
  | c :: rest => Char.toUpper c :: rest.map Char.toLower

/-- Python `line.split(":", 1)[1]`: everything after the first colon.
Only ever invoked on lines that contain a colon (they start with a
`"...:"` prefix), where the semantics agree with the Python slice. -/
def afterFirstColon : LC → LC
  | [] => []
  | c :: rest => if c = ':' then rest else afterFirstColon rest

/-- Substring occurrence test (`pat in s` for Python strings). -/
def containsSub (pat : LC) : LC → Bool
  | [] => pat.isEmpty
  | c :: rest => pat.isPrefixOf (c :: rest) || containsSub pat rest

/-- Python `s.split("\n")`. -/
def psplitNl : LC → List LC
  | [] => [[]]
  | c :: rest =>
    if c = '\n' then [] :: psplitNl rest
    else
      match psplitNl rest with
      | [] => [[c]]
      | h :: t => (c :: h) :: t

/-- Python `s.split("--")`: split on non-overlapping occurrences of the
double hyphen, scanning left to right. -/
def psplitSep : LC → List LC
  | [] => [[]]
  | [c] => [[c]]
  | c1 :: c2 :: rest =>
    if c1 = '-' ∧ c2 = '-' then [] :: psplitSep rest
    else
      match psplitSep (c2 :: rest) with
      | [] => [[c1]]
      | h :: t => (c1 :: h) :: t

/-- Python `s.replace(pat, repl)` (single left-to-right pass, no rescan of the
replacement), with a fuel argument; `fuel = s.length` always suffices because
every step consumes at least one character. -/
def preplaceF (pat repl : LC) : Nat → LC → LC
  | _, [] => []
  | 0, s => s
  | fuel + 1, c :: rest =>
    if pat.isPrefixOf (c :: rest) then
      repl ++ preplaceF pat repl fuel (rest.drop (pat.length - 1))
    else
      c :: preplaceF pat repl fuel rest

/-- Python `s.replace(pat, repl)`. -/
def preplace (pat repl s : LC) : LC := preplaceF pat repl s.length s

/-- `"Untitled Recipe"`. -/
def sUntitled : LC := "Untitled Recipe".toList

/-- `"title:"`. -/
def sTitleP : LC := "title:".toList

/-- `"ingredients:"`. -/
def sIngP : LC := "ingredients:".toList

/-- `"directions:"`. -/
def sDirP : LC := "directions:".toList

/-- `"Ingredients: "`. -/
def sIngrLabel : LC := "Ingredients: ".toList

/-- `", "`. -/
def sCommaSp : LC := ", ".toList

/-- `"<section>"`. -/
def sSection : LC := "<section>".toList

/-- `"<sep>"`. -/
def sSepTok : LC := "<sep>".toList

/-- `"--"`. -/
def sDashDash : LC := "--".toList

/-- `_clean_special_tokens`: map `<section>` to a newline and `<sep>` to
`--`, then remove each special token in turn, then strip. -/
def cleanSpecialTokens (toks : List LC) (text : LC) : LC :=
  pstrip (toks.foldl (fun t tok => preplace tok [] t)
    (preplace sSepTok sDashDash (preplace sSection ['\n'] text)))

/-- The non-empty stripped lines of the cleaned text
(`[l.strip() for l in cleaned.split("\n") if l.strip()]`). -/
def linesOf (toks : List LC) (raw : LC) : List LC :=
  ((psplitNl (cleanSpecialTokens toks raw)).map pstrip).filter (fun l => !l.isEmpty)

/-- `line.lower().startswith("title:")`. -/
def isTitleLine (l : LC) : Bool := sTitleP.isPrefixOf (plower l)

/-- `line.lower().startswith("ingredients:")`. -/
def isIngLine (l : LC) : Bool := sIngP.isPrefixOf (plower l)

/-- `line.lower().startswith("directions:")`. -/
def isDirLine (l : LC) : Bool := sDirP.isPrefixOf (plower l)

/-- The remainder of a marker line after its first colon, stripped
(`line.split(":", 1)[1].strip()`). -/
def captureOf (l : LC) : LC := pstrip (afterFirstColon l)

/-- The value the scan loop assigns to `title` from a `title:` line
(`line.split(":", 1)[1].strip() or "Untitled Recipe"`). -/
def titleCaptureOf (l : LC) : LC :=
  if (captureOf l).isEmpty then sUntitled else captureOf l

/-- One iteration of the parser's prefix-matching loop (the
`if/elif/elif` chain over one line); the accumulator is
`(title, ingredients_line, directions_line)`. -/
def scanStep (acc : LC × LC × LC) (line : LC) : LC × LC × LC :=
  if isTitleLine line then (titleCaptureOf line, acc.2.1, acc.2.2)
  else if isIngLine line then (acc.1, captureOf line, acc.2.2)
  else if isDirLine line then (acc.1, acc.2.1, captureOf line)
  else acc

/-- The parser's whole prefix-matching loop over the line list. -/
def scanFields (lines : List LC) : LC × LC × LC :=
  lines.foldl scanStep (sUntitled, [], [])

/-- `[s.strip().capitalize() for s in line.split("--") if s.strip()]`. -/
def splitSegs (l : LC) : List LC :=
  ((psplitSep l).filter (fun s => !(pstrip s).isEmpty)).map (fun s => pcapitalize (pstrip s))

/-- `"\n".join(f"{i+1}. {step}" for i, step in enumerate(steps))`. -/
def numberSteps (steps : List LC) : LC :=
  List.intercalate ['\n']
    (steps.enum.map (fun p => (Nat.repr (p.1 + 1)).toList ++ ('.' :: ' ' :: []) ++ p.2))

/-- `parse_recipe_output`: parse one raw candidate string into
`(title, shortDescription, instructions)`. -/
def parse_recipe_output (toks : List LC) (raw : LC) : LC × LC × LC :=
  let cleaned := cleanSpecialTokens toks raw
  let lines := linesOf toks raw
  if lines.isEmpty then (sUntitled, [], cleaned)
  else
    let f := scanFields lines
    let title := if f.1 = sUntitled then (lines.headD []).take 80 else f.1
    let short_desc :=
      if f.2.1.isEmpty then []
      else
        let ingList := splitSegs f.2.1
        if ingList.isEmpty then []
        else sIngrLabel ++ List.intercalate sCommaSp (ingList.take 6)
    let instructions :=
      if f.2.2.isEmpty then cleaned
      else
        let steps := splitSegs f.2.2
        if steps.isEmpty then cleaned
        else numberSteps steps
    (title.take 80, short_desc.take 200, instructions)

/-- The handler's ingredient normalization
(`[ing.strip().lower() for ing in req.ingredients if ing and ing.strip()]`;
`ing and ing.strip()` is truthy exactly when the stripped entry is
non-empty). -/
def normalizeIngredients (ings : List LC) : List LC :=
  (ings.filter (fun i => !(pstrip i).isEmpty)).map (fun i => plower (pstrip i))

/-- Prompt construction in `generate_recipe_text`: `"items: " + items_str`. -/
def generate_recipe_text_prompt (items : LC) : LC := "items: ".toList ++ items

/-- The collection loop of `generate_recipes` over the raw outputs: the
insertion-ordered dict is modelled as the accumulator list of parsed triples
(its keys are the lowercased titles); the `uuid4` identifier carries no
information relevant to any claim and is omitted. -/
def collectGo (toks : List LC) : List LC → List (LC × LC × LC) → List (LC × LC × LC)
  | [], acc => acc
  | raw :: rest, acc =>
    let tr := parse_recipe_output toks raw
    if (acc.map (fun r => plower r.1)).contains (plower tr.1) then
      collectGo toks rest acc
    else
      let acc2 := acc ++ [tr]
      if 3 ≤ acc2.length then acc2 else collectGo toks rest acc2

/-- Parse, deduplicate by case-insensitive title, cap at 3. -/
def collectRecipes (toks : List LC) (raws : List LC) : List (LC × LC × LC) :=
  collectGo toks raws []

/-- The `/generate-recipes` handler: validation, normalization, prompt
construction, generation (via the oracle `gen`), collection.  Errors are the
HTTP status codes. -/
def generate_recipes (gen : LC → List LC) (toks : List LC) (ings : List LC) :
    Except Nat (List (LC × LC × LC)) :=
  if ings.isEmpty then Except.error 400
  else
    let cleaned := normalizeIngredients ings
    if cleaned.isEmpty then Except.error 400
    else
      Except.ok (collectRecipes toks
        (gen (generate_recipe_text_prompt (List.intercalate sCommaSp cleaned))))

/-- `" -- "`. -/
def sSpDashSp : LC := " -- ".toList

/-- A raw candidate consisting of exactly one `title:`, one `ingredients:` and
one `directions:` line (the shape quantified over in the spec's first testable
property). -/
def mkThreeLineRaw (X A B s1 s2 : LC) : LC :=
  ("title: ".toList ++ X) ++
    '\n' :: (("ingredients: ".toList ++ (A ++ (sSpDashSp ++ B))) ++
      '\n' :: ("directions: ".toList ++ (s1 ++ (sSpDashSp ++ s2))))

/-- A non-empty proper suffix of `a` is a prefix of `b` (the standard sense in
which occurrences of two patterns can overlap in a text). -/
def properSuffixPrefix (a b : LC) : Bool :=
  a.tails.any (fun s => !s.isEmpty && decide (s.length < a.length) && s.isPrefixOf b)

/-- Two tokens overlap if one occurs inside the other or a non-empty proper
suffix of one is a prefix of the other. -/
def tokensOverlap (a b : LC) : Bool :=
  containsSub a b || containsSub b a || properSuffixPrefix a b || properSuffixPrefix b a

/-! ### Character-level lemmas -/

theorem char_eq_of_toNat_eq {a b : Char} (h : a.toNat = b.toNat) : a = b := by
  have h2 := congrArg Char.ofNat h
  rwa [Char.ofNat_toNat, Char.ofNat_toNat] at h2

theorem toNat_toLower (c : Char) :
    (Char.toLower c).toNat = if 65 ≤ c.toNat ∧ c.toNat ≤ 90 then c.toNat + 32 else c.toNat := by
  simp only [Char.toLower, ge_iff_le]
  split
  case isTrue h =>
    have hv : Nat.isValidChar (c.toNat + 32) := Or.inl (by omega)
    simp only [Char.ofNat, hv, dite_true]
    rfl
  case isFalse h => rfl

theorem toLower_toLower (c : Char) : Char.toLower (Char.toLower c) = Char.toLower c := by
  apply char_eq_of_toNat_eq
  by_cases h : 65 ≤ c.toNat ∧ c.toNat ≤ 90
  · have h1 : (Char.toLower c).toNat = c.toNat + 32 := by rw [toNat_toLower, if_pos h]
    rw [toNat_toLower, h1, if_neg (by omega : ¬(65 ≤ c.toNat + 32 ∧ c.toNat + 32 ≤ 90))]
  · have h1 : (Char.toLower c).toNat = c.toNat := by rw [toNat_toLower, if_neg h]
    rw [toNat_toLower, h1, if_neg h]

theorem pIsSpace_toLower (c : Char) : pIsSpace (Char.toLower c) = pIsSpace c := by
  simp only [pIsSpace, toNat_toLower]
  split
  case isTrue h =>
    have h1 : ¬(c.toNat + 32 = 32) := by omega
    have h2 : ¬(c.toNat + 32 ≤ 13) := by omega
    have h3 : ¬(c.toNat = 32) := by omega
    have h4 : ¬(c.toNat ≤ 13) := by omega
    simp [h1, h2, h3, h4]
  case isFalse h => rfl

/-! ### Lemmas about `pstrip` -/

theorem dropWhile_cons_of_space {c : Char} {s : LC} (hc : pIsSpace c = true) :
    List.dropWhile pIsSpace (c :: s) = List.dropWhile pIsSpace s := by
  simp [List.dropWhile_cons, hc]

theorem dropWhile_cons_of_not_space {c : Char} {s : LC} (hc : pIsSpace c = false) :
    List.dropWhile pIsSpace (c :: s) = c :: s := by
  simp [List.dropWhile_cons, hc]

theorem head_not_space_of_dropWhile_eq {c : Char} {s : LC}
    (h : List.dropWhile pIsSpace (c :: s) = c :: s) : pIsSpace c = false := by
  cases hp : pIsSpace c
  · rfl
  · rw [dropWhile_cons_of_space hp] at h
    have hle := (List.dropWhile_sublist (l := s) (p := pIsSpace)).length_le
    rw [h] at hle
    simp at hle

theorem dropWhile_append_eq_self {a b : LC} (ha : a ≠ [])
    (h : List.dropWhile pIsSpace a = a) :
    List.dropWhile pIsSpace (a ++ b) = a ++ b := by
  cases a with
  | nil => exact absurd rfl ha
  | cons c t =>
    have hc := head_not_space_of_dropWhile_eq h
    simp [List.cons_append, List.dropWhile_cons, hc]

theorem pstrip_eq_self_iff {s : LC} :
    pstrip s = s ↔
      List.dropWhile pIsSpace s = s ∧
        List.dropWhile pIsSpace s.reverse = s.reverse := by
  constructor
  · intro h
    have hlen1 : (pstrip s).length ≤ (List.dropWhile pIsSpace s).length := by
      unfold pstrip
      rw [List.length_reverse]
      calc (List.dropWhile pIsSpace (List.dropWhile pIsSpace s).reverse).length
          ≤ (List.dropWhile pIsSpace s).reverse.length :=
            (List.dropWhile_sublist _).length_le
        _ = (List.dropWhile pIsSpace s).length := List.length_reverse _
    have hlen2 : (List.dropWhile pIsSpace s).length ≤ s.length :=
      (List.dropWhile_sublist _).length_le
    have hds : List.dropWhile pIsSpace s = s := by
      apply (List.dropWhile_sublist _).eq_of_length
      have := congrArg List.length h
      omega
    refine ⟨hds, ?_⟩
    unfold pstrip at h
    rw [hds] at h
    have : List.dropWhile pIsSpace s.reverse = s.reverse := by
      have h2 := congrArg List.reverse h
      rwa [List.reverse_reverse] at h2
    exact this
  · intro ⟨h1, h2⟩
    unfold pstrip
    rw [h1, h2, List.reverse_reverse]

theorem pstrip_eq_self_of {s : LC}
    (h1 : List.dropWhile pIsSpace s = s)
    (h2 : List.dropWhile pIsSpace s.reverse = s.reverse) : pstrip s = s :=
  pstrip_eq_self_iff.mpr ⟨h1, h2⟩

theorem pstrip_cons_space {c : Char} {s : LC} (hc : pIsSpace c = true) :
    pstrip (c :: s) = pstrip s := by
  unfold pstrip
  rw [dropWhile_cons_of_space hc]

theorem pstrip_concat_space {c : Char} {s : LC} (hc : pIsSpace c = true) :
    pstrip (s ++ [c]) = pstrip s := by
  unfold pstrip
  rw [List.dropWhile_append]
  cases h : (List.dropWhile pIsSpace s).isEmpty
  · simp only [Bool.false_eq_true, if_false]
    rw [List.reverse_append]
    simp only [List.reverse_cons, List.reverse_nil, List.nil_append, List.singleton_append]
    rw [dropWhile_cons_of_space hc]
  · simp only [if_true]
    rw [List.isEmpty_iff] at h
    rw [h]
    simp [List.dropWhile_cons, hc]

/-- `pstrip` leaves a concatenation unchanged when the left part starts with a
non-space character and the reversed right part starts with a non-space
character (both parts non-empty). -/
theorem pstrip_append_of {a b : LC} (hane : a ≠ []) (hbne : b ≠ [])
    (ha : List.dropWhile pIsSpace a = a)
    (hb : List.dropWhile pIsSpace b.reverse = b.reverse) :
    pstrip (a ++ b) = a ++ b := by
  apply pstrip_eq_self_of
  · exact dropWhile_append_eq_self hane ha
  · rw [List.reverse_append]
    exact dropWhile_append_eq_self (by simp [hbne]) hb

/-! ### `plower` and `pstrip` interaction -/

theorem plower_plower (s : LC) : plower (plower s) = plower s := by
  unfold plower
  rw [List.map_map]
  exact List.map_congr_left (fun c _ => toLower_toLower c)

theorem plower_append (a b : LC) : plower (a ++ b) = plower a ++ plower b :=
  List.map_append _ _ _

theorem dropWhile_plower (s : LC) :
    List.dropWhile pIsSpace (plower s) = plower (List.dropWhile pIsSpace s) := by
  unfold plower
  rw [List.dropWhile_map]
  have hp : (pIsSpace ∘ Char.toLower) = pIsSpace := funext (fun c => pIsSpace_toLower c)
  rw [hp]

theorem pstrip_plower (s : LC) : pstrip (plower s) = plower (pstrip s) := by
  unfold pstrip
  rw [dropWhile_plower]
  show ((plower _).reverse.dropWhile pIsSpace).reverse = _
  rw [show (plower (List.dropWhile pIsSpace s)).reverse
        = plower (List.dropWhile pIsSpace s).reverse from (List.map_reverse _ _).symm]
  rw [dropWhile_plower]
  rw [show (plower (List.dropWhile pIsSpace (List.dropWhile pIsSpace s).reverse)).reverse
        = plower (List.dropWhile pIsSpace (List.dropWhile pIsSpace s).reverse).reverse
      from (List.map_reverse _ _).symm]

theorem not_space_head_dropWhile {l t : LC} {c : Char}
    (h : List.dropWhile pIsSpace l = c :: t) : pIsSpace c = false := by
  induction l with
  | nil => simp at h
  | cons a l ih =>
    rw [List.dropWhile_cons] at h
    by_cases hp : pIsSpace a = true
    · rw [if_pos hp] at h; exact ih h
    · rw [if_neg hp] at h
      cases h
      simpa using hp

theorem dropWhile_eq_self_of_head? {l : LC}
    (h : ∀ c, l.head? = some c → pIsSpace c = false) :
    List.dropWhile pIsSpace l = l := by
  cases l with
  | nil => rfl
  | cons c t => exact dropWhile_cons_of_not_space (h c rfl)

theorem dropWhile_dropWhile (l : LC) :
    List.dropWhile pIsSpace (List.dropWhile pIsSpace l) = List.dropWhile pIsSpace l := by
  apply dropWhile_eq_self_of_head?
  intro c hc
  cases hd : List.dropWhile pIsSpace l with
  | nil => rw [hd] at hc; simp at hc
  | cons a t =>
    rw [hd] at hc
    simp only [List.head?_cons, Option.some.injEq] at hc
    subst hc
    exact not_space_head_dropWhile hd

theorem getLast?_dropWhile {l : LC}
    (h : List.dropWhile pIsSpace l ≠ []) :
    (List.dropWhile pIsSpace l).getLast? = l.getLast? := by
  induction l with
  | nil => simp at h
  | cons a l ih =>
    rw [List.dropWhile_cons]
    by_cases hp : pIsSpace a = true
    · rw [if_pos hp]
      rw [List.dropWhile_cons, if_pos hp] at h
      have hl : l ≠ [] := by
        intro he
        rw [he] at h
        simp at h
      rw [ih h]
      cases l with
      | nil => exact absurd rfl hl
      | cons b m => rw [List.getLast?_cons_cons]
    · rw [if_neg hp]

theorem pstrip_pstrip (x : LC) : pstrip (pstrip x) = pstrip x := by
  by_cases hV : List.dropWhile pIsSpace (List.dropWhile pIsSpace x).reverse = []
  · have hx : pstrip x = [] := by unfold pstrip; rw [hV]; rfl
    rw [hx]
    rfl
  · have hps : pstrip x = (List.dropWhile pIsSpace (List.dropWhile pIsSpace x).reverse).reverse := rfl
    have hW : List.dropWhile pIsSpace x ≠ [] := by
      intro he
      rw [he] at hV
      simp at hV
    obtain ⟨w, tW, hWe⟩ : ∃ w tW, List.dropWhile pIsSpace x = w :: tW := by
      cases hc : List.dropWhile pIsSpace x with
      | nil => exact absurd hc hW
      | cons w tW => exact ⟨w, tW, rfl⟩
    have hw : pIsSpace w = false := not_space_head_dropWhile hWe
    have hlast : (List.dropWhile pIsSpace (List.dropWhile pIsSpace x).reverse).getLast?
        = some w := by
      rw [getLast?_dropWhile hV, List.getLast?_reverse, hWe]
      rfl
    apply pstrip_eq_self_of
    · rw [hps]
      apply dropWhile_eq_self_of_head?
      intro c hc
      rw [List.head?_reverse, hlast] at hc
      cases hc
      exact hw
    · rw [hps, List.reverse_reverse]
      exact dropWhile_dropWhile _

/-! ### Lemmas about `psplitNl` -/

theorem psplitNl_of_not_mem {s : LC} (h : '\n' ∉ s) : psplitNl s = [s] := by
  induction s with
  | nil => rfl
  | cons c rest ih =>
    have hc : ¬(c = '\n') := fun he => h (he ▸ List.mem_cons_self _ _)
    have hr : '\n' ∉ rest := fun hm => h (List.mem_cons_of_mem _ hm)
    simp [psplitNl, hc, ih hr]

theorem psplitNl_append {s : LC} (t : LC) (h : '\n' ∉ s) :
    psplitNl (s ++ '\n' :: t) = s :: psplitNl t := by
  induction s with
  | nil => simp [psplitNl]
  | cons c rest ih =>
    have hc : ¬(c = '\n') := fun he => h (he ▸ List.mem_cons_self _ _)
    have hr : '\n' ∉ rest := fun hm => h (List.mem_cons_of_mem _ hm)
    simp [psplitNl, hc, ih hr]

/-! ### Lemmas about `containsSub` and `psplitSep` -/

theorem containsSub_cons (pat : LC) (c : Char) (rest : LC) :
    containsSub pat (c :: rest) = (pat.isPrefixOf (c :: rest) || containsSub pat rest) := rfl

theorem dd_not_prefix_of_head {c : Char} (hc : ¬(c = '-')) (l : LC) :
    sDashDash.isPrefixOf (c :: l) = false := by
  show (['-', '-'] : LC).isPrefixOf (c :: l) = false
  simp [List.isPrefixOf]
  intro h
  exact absurd h.symm hc

theorem psplitSep_ne_nil (s : LC) : psplitSep s ≠ [] := by
  induction s using psplitSep.induct with
  | case1 => simp [psplitSep]
  | case2 c => simp [psplitSep]
  | case3 c1 c2 rest hif ih =>
    rw [psplitSep, if_pos hif]
    simp
  | case4 c1 c2 rest hif heq ih => exact absurd heq ih
  | case5 c1 c2 rest hif hd tl heq ih =>
    rw [psplitSep, if_neg hif, heq]
    simp

theorem psplitSep_of_not_contains {s : LC} (h : containsSub sDashDash s = false) :
    psplitSep s = [s] := by
  induction s using psplitSep.induct with
  | case1 => rfl
  | case2 c => rfl
  | case3 c1 c2 rest hif ih =>
    obtain ⟨h1, h2⟩ := hif
    subst h1; subst h2
    rw [containsSub_cons] at h
    simp [sDashDash, List.isPrefixOf] at h
  | case4 c1 c2 rest hif heq ih => exact absurd heq (psplitSep_ne_nil _)
  | case5 c1 c2 rest hif hd tl heq ih =>
    rw [containsSub_cons] at h
    simp only [Bool.or_eq_false_iff] at h
    have h2 := ih h.2
    rw [heq] at h2
    injection h2 with h21 h22
    subst h21
    subst h22
    rw [psplitSep, if_neg hif, heq]

theorem psplitSep_append (s t : LC)
    (h : containsSub sDashDash (s ++ ['-']) = false) :
    psplitSep (s ++ '-' :: '-' :: t) = s :: psplitSep t := by
  induction s with
  | nil =>
    show psplitSep ('-' :: '-' :: t) = [] :: psplitSep t
    rw [psplitSep, if_pos ⟨rfl, rfl⟩]
  | cons c s ih =>
    rw [List.cons_append] at h
    rw [containsSub_cons] at h
    simp only [Bool.or_eq_false_iff] at h
    obtain ⟨hpref, hrest⟩ := h
    cases s with
    | nil =>
      have hc : ¬(c = '-') := by
        intro he
        subst he
        simp [sDashDash, List.isPrefixOf] at hpref
      show psplitSep (c :: '-' :: '-' :: t) = [c] :: psplitSep t
      rw [psplitSep, if_neg (by intro hand; exact hc hand.1)]
      rw [show psplitSep ('-' :: '-' :: t) = [] :: psplitSep t from by
        rw [psplitSep, if_pos ⟨rfl, rfl⟩]]
    | cons d s' =>
      have hmid : psplitSep (d :: s' ++ '-' :: '-' :: t) = (d :: s') :: psplitSep t :=
        ih hrest
      have hcd : ¬(c = '-' ∧ d = '-') := by
        intro hand
        obtain ⟨hc, hd⟩ := hand
        subst hc; subst hd
        simp [sDashDash, List.isPrefixOf] at hpref
      show psplitSep (c :: d :: (s' ++ '-' :: '-' :: t)) = (c :: d :: s') :: psplitSep t
      rw [psplitSep, if_neg hcd]
      rw [show (d :: (s' ++ '-' :: '-' :: t)) = (d :: s' ++ '-' :: '-' :: t) from rfl, hmid]

theorem containsSub_dd_append_of {A u : LC}
    (hA : containsSub sDashDash A = false)
    (hu : containsSub sDashDash u = false)
    (hb : A.getLast? ≠ some '-' ∨ u.head? ≠ some '-') :
    containsSub sDashDash (A ++ u) = false := by
  induction A with
  | nil => exact hu
  | cons c A ih =>
    rw [containsSub_cons] at hA
    simp only [Bool.or_eq_false_iff] at hA
    have htail : containsSub sDashDash (A ++ u) = false := by
      apply ih hA.2
      cases A with
      | nil => exact Or.inl (by simp)
      | cons d A' =>
        cases hb with
        | inl hb1 =>
          left
          rw [List.getLast?_cons_cons] at hb1
          exact hb1
        | inr hb2 => exact Or.inr hb2
    rw [List.cons_append, containsSub_cons, htail]
    simp only [Bool.or_false]
    by_cases hc : c = '-'
    · subst hc
      cases A with
      | cons d A' =>
        have hd : ¬(d = '-') := by
          intro he
          subst he
          have : sDashDash.isPrefixOf ('-' :: '-' :: A') = true := by
            show (['-', '-'] : LC).isPrefixOf _ = true
            simp [List.isPrefixOf]
          rw [this] at hA
          exact absurd hA.1 (by simp)
        show sDashDash.isPrefixOf ('-' :: (d :: A' ++ u)) = false
        show (['-', '-'] : LC).isPrefixOf ('-' :: d :: (A' ++ u)) = false
        simp [List.isPrefixOf]
        intro h
        exact absurd h.symm hd
      | nil =>
        have hu' : u.head? ≠ some '-' := by
          cases hb with
          | inl hb1 => exact absurd rfl hb1
          | inr hb2 => exact hb2
        cases u with
        | nil => rfl
        | cons b u' =>
          have hbne : ¬(b = '-') := by
            intro he
            subst he
            exact hu' rfl
          show sDashDash.isPrefixOf ('-' :: ([] : LC) ++ b :: u') = false
          show (['-', '-'] : LC).isPrefixOf ('-' :: b :: u') = false
          simp [List.isPrefixOf]
          intro h
          exact absurd h.symm hbne
    · exact dd_not_prefix_of_head hc _

/-! ### Lemmas about `preplace` -/

theorem preplaceF_of_not_contains (pat repl : LC) :
    ∀ (s : LC) (fuel : Nat), containsSub pat s = false → preplaceF pat repl fuel s = s := by
  intro s
  induction s with
  | nil => intro fuel _; cases fuel <;> rfl
  | cons c rest ih =>
    intro fuel h
    rw [containsSub_cons] at h
    simp only [Bool.or_eq_false_iff] at h
    cases fuel with
    | zero => rfl
    | succ f =>
      rw [preplaceF, if_neg (by rw [h.1]; simp), ih f h.2]

theorem preplace_of_not_contains (pat repl : LC) {s : LC}
    (h : containsSub pat s = false) : preplace pat repl s = s :=
  preplaceF_of_not_contains pat repl s s.length h

theorem preplaceF_single (c : Char) :
    ∀ (s : LC) (fuel : Nat), s.length ≤ fuel →
      preplaceF [c] [] fuel s = s.filter (fun a => !(a == c)) := by
  intro s
  induction s with
  | nil => intro fuel _; cases fuel <;> rfl
  | cons a rest ih =>
    intro fuel hf
    cases fuel with
    | zero => simp at hf
    | succ f =>
      have hf' : rest.length ≤ f := by simp at hf; omega
      rw [preplaceF]
      by_cases hca : c = a
      · subst hca
        rw [if_pos (by simp [List.isPrefixOf])]
        have hd : (([c] : LC).length - 1) = 0 := rfl
        rw [hd, List.drop_zero, List.nil_append, ih f hf']
        simp [List.filter_cons]
      · rw [if_neg (by simp [List.isPrefixOf, hca])]
        rw [ih f hf', List.filter_cons]
        have hac : ¬(a = c) := fun he => hca he.symm
        simp [hac]

theorem preplace_single (c : Char) (s : LC) :
    preplace [c] [] s = s.filter (fun a => !(a == c)) :=
  preplaceF_single c s s.length le_rfl

/-! ### Guard lemmas for the scan loop -/

theorem isTitleLine_title (Y : LC) : isTitleLine ("title: ".toList ++ Y) = true := rfl

theorem isTitleLine_ing (Y : LC) : isTitleLine ("ingredients: ".toList ++ Y) = false := rfl

theorem isTitleLine_dir (Y : LC) : isTitleLine ("directions: ".toList ++ Y) = false := rfl

theorem isIngLine_ing (Y : LC) : isIngLine ("ingredients: ".toList ++ Y) = true := rfl

theorem isIngLine_dir (Y : LC) : isIngLine ("directions: ".toList ++ Y) = false := rfl

theorem isDirLine_dir (Y : LC) : isDirLine ("directions: ".toList ++ Y) = true := rfl

theorem captureOf_title (Y : LC) : captureOf ("title: ".toList ++ Y) = pstrip (' ' :: Y) := rfl

theorem captureOf_ing (Y : LC) :
    captureOf ("ingredients: ".toList ++ Y) = pstrip (' ' :: Y) := rfl

theorem captureOf_dir (Y : LC) :
    captureOf ("directions: ".toList ++ Y) = pstrip (' ' :: Y) := rfl

theorem isIngLine_title (Y : LC) : isIngLine ("title: ".toList ++ Y) = false := rfl

theorem isDirLine_title (Y : LC) : isDirLine ("title: ".toList ++ Y) = false := rfl

theorem isDirLine_ing (Y : LC) : isDirLine ("ingredients: ".toList ++ Y) = false := rfl

theorem intercalate_pair (sep a b : LC) : List.intercalate sep [a, b] = a ++ (sep ++ b) := by
  simp [List.intercalate, List.intersperse]

theorem numberSteps_pair (u v : LC) :
    numberSteps [u, v] = "1. ".toList ++ (u ++ '\n' :: ("2. ".toList ++ v)) := by
  have h1 : (Nat.repr 1).data = ['1'] := rfl
  have h2 : (Nat.repr 2).data = ['2'] := rfl
  simp [numberSteps, List.enum, List.enumFrom, h1, h2, intercalate_pair]

theorem head_eq_of_isPrefixOf {a : Char} {p l : LC}
    (h : (a :: p).isPrefixOf l = true) : ∃ t, l = a :: t := by
  cases l with
  | nil => simp [List.isPrefixOf] at h
  | cons b t =>
    simp only [List.isPrefixOf, Bool.and_eq_true, beq_iff_eq] at h
    exact ⟨t, by rw [h.1]⟩

theorem not_title_of_ing {l : LC} (h : isIngLine l = true) : isTitleLine l = false := by
  obtain ⟨t, ht⟩ := head_eq_of_isPrefixOf
    (show ('i' :: "ngredients:".toList).isPrefixOf (plower l) = true from h)
  show sTitleP.isPrefixOf (plower l) = false
  rw [ht]
  rfl

theorem not_title_of_dir {l : LC} (h : isDirLine l = true) : isTitleLine l = false := by
  obtain ⟨t, ht⟩ := head_eq_of_isPrefixOf
    (show ('d' :: "irections:".toList).isPrefixOf (plower l) = true from h)
  show sTitleP.isPrefixOf (plower l) = false
  rw [ht]
  rfl

theorem not_ing_of_dir {l : LC} (h : isDirLine l = true) : isIngLine l = false := by
  obtain ⟨t, ht⟩ := head_eq_of_isPrefixOf
    (show ('d' :: "irections:".toList).isPrefixOf (plower l) = true from h)
  show sIngP.isPrefixOf (plower l) = false
  rw [ht]
  rfl

/-! ### Component behaviour of one scan step -/

theorem scanStep_fst_title {acc : LC × LC × LC} {l : LC} (h : isTitleLine l = true) :
    (scanStep acc l).1 = titleCaptureOf l := by
  unfold scanStep
  rw [h]
  rfl

theorem scanStep_fst_not {acc : LC × LC × LC} {l : LC} (h : isTitleLine l = false) :
    (scanStep acc l).1 = acc.1 := by
  unfold scanStep
  rw [h]
  by_cases h2 : isIngLine l = true
  · simp [h2]
  · simp only [Bool.not_eq_true] at h2
    rw [h2]
    by_cases h3 : isDirLine l = true
    · simp [h3]
    · simp only [Bool.not_eq_true] at h3
      rw [h3]
      simp

theorem scanStep_snd_ing {acc : LC × LC × LC} {l : LC} (h : isIngLine l = true) :
    (scanStep acc l).2.1 = captureOf l := by
  unfold scanStep
  rw [not_title_of_ing h, h]
  simp

theorem scanStep_snd_not {acc : LC × LC × LC} {l : LC} (h : isIngLine l = false) :
    (scanStep acc l).2.1 = acc.2.1 := by
  unfold scanStep
  by_cases h1 : isTitleLine l = true
  · simp [h1]
  · simp only [Bool.not_eq_true] at h1
    rw [h1, h]
    by_cases h3 : isDirLine l = true
    · simp [h3]
    · simp only [Bool.not_eq_true] at h3
      rw [h3]
      simp

theorem scanStep_dir_capture {acc : LC × LC × LC} {l : LC} (h : isDirLine l = true) :
    (scanStep acc l).2.2 = captureOf l := by
  unfold scanStep
  rw [not_title_of_dir h, not_ing_of_dir h, h]
  simp

theorem scanStep_dir_not {acc : LC × LC × LC} {l : LC} (h : isDirLine l = false) :
    (scanStep acc l).2.2 = acc.2.2 := by
  unfold scanStep
  by_cases h1 : isTitleLine l = true
  · simp [h1]
  · simp only [Bool.not_eq_true] at h1
    rw [h1]
    by_cases h2 : isIngLine l = true
    · simp [h2]
    · simp only [Bool.not_eq_true] at h2
      rw [h2, h]
      simp

/-! ### The scan loop captures the last matching line of each kind -/

theorem foldl_scan_title (lines : List LC) (acc : LC × LC × LC) :
    (List.foldl scanStep acc lines).1 =
      ((lines.filter isTitleLine).getLast?).elim acc.1 titleCaptureOf := by
  induction lines using List.reverseRecOn with
  | nil => simp
  | append_singleton ls l ih =>
    rw [List.foldl_append, List.filter_append]
    show (scanStep (List.foldl scanStep acc ls) l).1 = _
    cases htl : isTitleLine l
    · rw [scanStep_fst_not htl, ih]
      simp [htl, List.filter_cons]
    · rw [scanStep_fst_title htl]
      have : List.filter isTitleLine [l] = [l] := by simp [List.filter_cons, htl]
      rw [this, List.getLast?_concat]
      rfl

theorem foldl_scan_ing (lines : List LC) (acc : LC × LC × LC) :
    (List.foldl scanStep acc lines).2.1 =
      ((lines.filter isIngLine).getLast?).elim acc.2.1 captureOf := by
  induction lines using List.reverseRecOn with
  | nil => simp
  | append_singleton ls l ih =>
    rw [List.foldl_append, List.filter_append]
    show (scanStep (List.foldl scanStep acc ls) l).2.1 = _
    cases htl : isIngLine l
    · rw [scanStep_snd_not htl, ih]
      simp [htl, List.filter_cons]
    · rw [scanStep_snd_ing htl]
      have : List.filter isIngLine [l] = [l] := by simp [List.filter_cons, htl]
      rw [this, List.getLast?_concat]
      rfl

theorem foldl_scan_dir (lines : List LC) (acc : LC × LC × LC) :
    (List.foldl scanStep acc lines).2.2 =
      ((lines.filter isDirLine).getLast?).elim acc.2.2 captureOf := by
  induction lines using List.reverseRecOn with
  | nil => simp
  | append_singleton ls l ih =>
    rw [List.foldl_append, List.filter_append]
    show (scanStep (List.foldl scanStep acc ls) l).2.2 = _
    cases htl : isDirLine l
    · rw [scanStep_dir_not htl, ih]
      simp [htl, List.filter_cons]
    · rw [scanStep_dir_capture htl]
      have : List.filter isDirLine [l] = [l] := by simp [List.filter_cons, htl]
      rw [this, List.getLast?_concat]
      rfl

theorem scanFields_title (lines : List LC) :
    (scanFields lines).1 =
      ((lines.filter isTitleLine).getLast?).elim sUntitled titleCaptureOf :=
  foldl_scan_title lines _

theorem scanFields_ing (lines : List LC) :
    (scanFields lines).2.1 =
      ((lines.filter isIngLine).getLast?).elim [] captureOf :=
  foldl_scan_ing lines _

theorem scanFields_dir (lines : List LC) :
    (scanFields lines).2.2 =
      ((lines.filter isDirLine).getLast?).elim [] captureOf :=
  foldl_scan_dir lines _

/-! ### Collector lemmas -/

theorem collectGo_pairwise (toks : List LC) :
    ∀ (raws : List LC) (acc : List (LC × LC × LC)),
      List.Pairwise (fun a b => plower a.1 ≠ plower b.1) acc →
      List.Pairwise (fun a b => plower a.1 ≠ plower b.1) (collectGo toks raws acc) := by
  intro raws
  induction raws with
  | nil => intro acc h; exact h
  | cons raw rest ih =>
    intro acc h
    rw [collectGo]
    by_cases hc :
        (acc.map (fun r => plower r.1)).contains
          (plower (parse_recipe_output toks raw).1) = true
    · rw [if_pos hc]
      exact ih acc h
    · rw [if_neg hc]
      have hnotmem :
          plower (parse_recipe_output toks raw).1 ∉ acc.map (fun r => plower r.1) :=
        fun hmem => hc (List.elem_iff.mpr hmem)
      have hpw : List.Pairwise (fun a b => plower a.1 ≠ plower b.1)
          (acc ++ [parse_recipe_output toks raw]) := by
        rw [List.pairwise_append]
        refine ⟨h, List.pairwise_singleton _ _, ?_⟩
        intro a ha b hb
        rw [List.mem_singleton] at hb
        subst hb
        intro heq
        exact hnotmem (heq ▸ List.mem_map_of_mem (fun r => plower r.1) ha)
      by_cases hlen : 3 ≤ (acc ++ [parse_recipe_output toks raw]).length
      · rw [if_pos hlen]
        exact hpw
      · rw [if_neg hlen]
        exact ih _ hpw

theorem collectGo_length_le (toks : List LC) :
    ∀ (raws : List LC) (acc : List (LC × LC × LC)),
      acc.length < 3 → (collectGo toks raws acc).length ≤ 3 := by
  intro raws
  induction raws with
  | nil => intro acc h; rw [collectGo]; omega
  | cons raw rest ih =>
    intro acc h
    rw [collectGo]
    by_cases hc :
        (acc.map (fun r => plower r.1)).contains
          (plower (parse_recipe_output toks raw).1) = true
    · rw [if_pos hc]; exact ih acc h
    · rw [if_neg hc]
      by_cases hlen : 3 ≤ (acc ++ [parse_recipe_output toks raw]).length
      · rw [if_pos hlen]
        rw [List.length_append] at hlen ⊢
        simp only [List.length_singleton] at hlen ⊢
        omega
      · rw [if_neg hlen]
        apply ih
        rw [List.length_append] at hlen ⊢
        simp only [List.length_singleton] at hlen ⊢
        omega

theorem collectGo_stable (toks : List LC) :
    ∀ (raws : List LC) (acc : List (LC × LC × LC)) (rest : List LC),
      acc.length < 3 → (collectGo toks raws acc).length = 3 →
      collectGo toks (raws ++ rest) acc = collectGo toks raws acc := by
  intro raws
  induction raws with
  | nil =>
    intro acc rest h hl
    rw [collectGo] at hl
    omega
  | cons raw raws ih =>
    intro acc rest h hl
    rw [collectGo] at hl
    rw [List.cons_append, collectGo, collectGo]
    by_cases hc :
        (acc.map (fun r => plower r.1)).contains
          (plower (parse_recipe_output toks raw).1) = true
    · rw [if_pos hc] at hl
      rw [if_pos hc, if_pos hc]
      exact ih acc rest h hl
    · rw [if_neg hc] at hl
      rw [if_neg hc, if_neg hc]
      by_cases hlen : 3 ≤ (acc ++ [parse_recipe_output toks raw]).length
      · rw [if_pos hlen, if_pos hlen]
      · rw [if_neg hlen] at hl
        rw [if_neg hlen, if_neg hlen]
        apply ih
        · rw [List.length_append] at hlen ⊢
          simp only [List.length_singleton] at hlen ⊢
          omega
        · exact hl

theorem collectGo_suffix (toks : List LC) :
    ∀ (raws : List LC) (acc : List (LC × LC × LC)),
      ∃ l, collectGo toks raws acc = acc ++ l ∧
        l.Sublist (raws.map (parse_recipe_output toks)) := by
  intro raws
  induction raws with
  | nil => intro acc; exact ⟨[], by rw [collectGo, List.append_nil], List.nil_sublist _⟩
  | cons raw rest ih =>
    intro acc
    rw [collectGo]
    by_cases hc :
        (acc.map (fun r => plower r.1)).contains
          (plower (parse_recipe_output toks raw).1) = true
    · rw [if_pos hc]
      obtain ⟨l, hl, hs⟩ := ih acc
      exact ⟨l, hl, hs.trans (List.sublist_cons_self _ _)⟩
    · rw [if_neg hc]
      by_cases hlen : 3 ≤ (acc ++ [parse_recipe_output toks raw]).length
      · rw [if_pos hlen]
        exact ⟨[parse_recipe_output toks raw], rfl,
          (List.nil_sublist _).cons₂ _⟩
      · rw [if_neg hlen]
        obtain ⟨l, hl, hs⟩ := ih (acc ++ [parse_recipe_output toks raw])
        refine ⟨parse_recipe_output toks raw :: l, ?_, hs.cons₂ _⟩
        rw [hl, List.append_assoc]
        rfl

/-! ### Claim theorems -/

/-- C3: for every special-token list and every input string, the title
returned by `parse_recipe_output` has length at most 80 characters and the
returned description has length at most 200 characters. -/
theorem parse_title_desc_bounds (toks : List LC) (raw : LC) :
    (parse_recipe_output toks raw).1.length ≤ 80 ∧
      (parse_recipe_output toks raw).2.1.length ≤ 200 := by
  unfold parse_recipe_output
  cases h : (linesOf toks raw).isEmpty
  · simp only [h, Bool.false_eq_true, if_false]
    constructor
    · simp only [List.length_take]
      omega
    · simp only [List.length_take]
      omega
  · simp only [h, if_true]
    constructor
    · decide
    · decide

/-- C9: for every special-token list and every input string, the title
returned by `parse_recipe_output` is non-empty (it is the default
`"Untitled Recipe"`, a non-empty captured remainder, or the non-empty first
line truncated to 80 characters). -/
theorem parse_title_ne_nil (toks : List LC) (raw : LC) :
    (parse_recipe_output toks raw).1 ≠ [] := by
  have hscan : ∀ (lines : List LC) (acc : LC × LC × LC), acc.1 ≠ [] →
      (List.foldl scanStep acc lines).1 ≠ [] := by
    intro lines
    induction lines with
    | nil => intro acc h; exact h
    | cons l ls ih =>
      intro acc h
      apply ih
      cases ht : isTitleLine l
      · rw [scanStep_fst_not ht]; exact h
      · rw [scanStep_fst_title ht]
        unfold titleCaptureOf
        by_cases he : (captureOf l).isEmpty = true
        · rw [if_pos he]; decide
        · rw [if_neg he]
          intro hc
          exact he (by rw [hc]; rfl)
  unfold parse_recipe_output
  cases h : (linesOf toks raw).isEmpty
  · simp only [h, Bool.false_eq_true, if_false]
    have hlines : linesOf toks raw ≠ [] := by
      intro he
      rw [he] at h
      simp at h
    obtain ⟨x, xs, hx⟩ : ∃ x xs, linesOf toks raw = x :: xs := by
      cases hc : linesOf toks raw with
      | nil => exact absurd hc hlines
      | cons x xs => exact ⟨x, xs, rfl⟩
    have hxne : x ≠ [] := by
      have hmem : x ∈ linesOf toks raw := by rw [hx]; exact List.mem_cons_self _ _
      unfold linesOf at hmem
      have h2 := (List.mem_filter.mp hmem).2
      intro he
      rw [he] at h2
      simp at h2
    by_cases hf : (scanFields (linesOf toks raw)).1 = sUntitled
    · rw [if_pos hf, hx]
      simp only [List.headD_cons]
      simp [List.take_eq_nil_iff, hxne]
    · rw [if_neg hf]
      have h1 : (scanFields (linesOf toks raw)).1 ≠ [] :=
        hscan (linesOf toks raw) (sUntitled, [], []) (by decide)
      simp [List.take_eq_nil_iff, h1]
  · simp only [h, if_true]
    decide

/-- C6: for every request whose ingredient list is empty or whose entries all
strip to the empty string, the handler answers the 400 error, and the result
does not depend on the generator or the token set at all (the generator is
never invoked; the handler is stateless, so nothing else can change). -/
theorem empty_ingredients_rejected (gen gen' : LC → List LC) (toks toks' : List LC)
    (ings : List LC) (h : ings = [] ∨ ∀ i ∈ ings, pstrip i = []) :
    generate_recipes gen toks ings = Except.error 400 ∧
      generate_recipes gen toks ings = generate_recipes gen' toks' ings := by
  have key : ∀ (g : LC → List LC) (tk : List LC),
      generate_recipes g tk ings = Except.error 400 := by
    intro g tk
    unfold generate_recipes
    cases h with
    | inl he => subst he; rfl
    | inr hall =>
      by_cases hne : ings.isEmpty = true
      · rw [if_pos hne]
      · rw [if_neg hne]
        have hnorm : normalizeIngredients ings = [] := by
          unfold normalizeIngredients
          rw [List.filter_eq_nil_iff.mpr ?_]
          · rfl
          · intro a ha
            simp [hall a ha]
        simp [hnorm]
  exact ⟨key gen toks, (key gen toks).trans (key gen' toks').symm⟩

/-- C6 witness: the concrete all-whitespace request `[" ", ""]` is rejected
with 400 under two different generators and token sets. -/
theorem empty_ingredients_rejected_witness :
    generate_recipes (fun _ => []) [] [[' '], []] = Except.error 400 ∧
      generate_recipes (fun _ => []) [] [[' '], []] =
        generate_recipes (fun p => [p]) [['a']] [[' '], []] :=
  empty_ingredients_rejected (fun _ => []) (fun p => [p]) [] [['a']] [[' '], []]
    (Or.inr (by decide))

/-- C8 counterexample: the two special tokens `"</s>"` and `"<pad>"` do not
overlap in any standard sense (neither contains the other, and no non-empty
proper suffix of one is a prefix of the other), yet applying the two removals
in the two possible orders to the input `"<pa</s>d>"` yields different
cleaned strings (removing `"</s>"` splices together a fresh `"<pad>"`
occurrence), so `_clean_special_tokens` is not order-independent. -/
theorem clean_order_dependent_cex :
    tokensOverlap ("</s>".toList) ("<pad>".toList) = false ∧
      cleanSpecialTokens [("</s>".toList), ("<pad>".toList)] ("<pa</s>d>".toList) ≠
        cleanSpecialTokens [("<pad>".toList), ("</s>".toList)] ("<pa</s>d>".toList) := by
  constructor
  · decide
  · decide

/-- C8 amended: token stripping is order-independent when the special tokens
are single characters (each removal is then a character filter, and filters
commute); for multi-character tokens order can matter even for
non-overlapping tokens, as `clean_order_dependent_cex` shows, though for any
fixed token order the cleaning (and hence the parse) is a deterministic
function of the raw string. -/
theorem clean_single_char_tokens_comm (c d : Char) (s : LC) :
    cleanSpecialTokens [[c], [d]] s = cleanSpecialTokens [[d], [c]] s := by
  unfold cleanSpecialTokens
  apply congrArg pstrip
  simp only [List.foldl_cons, List.foldl_nil]
  rw [preplace_single, preplace_single, preplace_single, preplace_single,
    List.filter_filter, List.filter_filter]
  apply List.filter_congr
  intro a _
  exact Bool.and_comm _ _

/-- C7 counterexample: the handler's normalization does not deduplicate; the
duplicate entry `["tomato", "tomato"]` survives in full, so the normalized
list is not duplicate-free. -/
theorem normalize_no_dedup_cex :
    normalizeIngredients [("tomato".toList), ("tomato".toList)] =
        [("tomato".toList), ("tomato".toList)] ∧
      ¬(normalizeIngredients [("tomato".toList), ("tomato".toList)]).Nodup := by
  constructor
  · decide
  · decide

/-- C7 amended: normalization trims, lowercases and drops entries that are
empty after trimming (without deduplicating); every surviving entry is
trimmed, lowercase and non-empty, the example `["Tomato", "  ", "cheese"]`
normalizes to `["tomato", "cheese"]`, and its prompt is
`"items: tomato, cheese"`. -/
theorem normalize_amended :
    (∀ (ings : List LC) (i : LC), i ∈ normalizeIngredients ings →
        pstrip i = i ∧ plower i = i ∧ i ≠ []) ∧
      normalizeIngredients [("Tomato".toList), ("  ".toList), ("cheese".toList)] =
        [("tomato".toList), ("cheese".toList)] ∧
      generate_recipe_text_prompt
          (List.intercalate sCommaSp
            (normalizeIngredients
              [("Tomato".toList), ("  ".toList), ("cheese".toList)])) =
        "items: tomato, cheese".toList := by
  refine ⟨?_, by decide, by decide⟩
  intro ings i hi
  unfold normalizeIngredients at hi
  rw [List.mem_map] at hi
  obtain ⟨x, hx, hix⟩ := hi
  have hxs : (pstrip x).isEmpty = false := by
    have h2 := (List.mem_filter.mp hx).2
    simpa using h2
  rw [← hix]
  refine ⟨?_, ?_, ?_⟩
  · rw [pstrip_plower, pstrip_pstrip]
  · rw [plower_plower]
  · intro hc
    unfold plower at hc
    rw [List.map_eq_nil_iff] at hc
    rw [hc] at hxs
    simp at hxs

/-- C7 amended witness: the entry produced from `["Tomato"]` is trimmed,
lowercase and non-empty. -/
theorem normalize_amended_witness :
    pstrip ("tomato".toList) = "tomato".toList ∧
      plower ("tomato".toList) = "tomato".toList ∧ "tomato".toList ≠ ([] : LC) :=
  normalize_amended.1 [("Tomato".toList)] ("tomato".toList) (by decide)

/-- C4: for every token set and every sequence of raw generator outputs, no
two collected recipes share a case-insensitive title (the collector skips an
output whose lowercased title is already a key); in particular two raw
outputs parsing to titles `"Soup"` and `"soup"` leave only the first-seen
one in the result. -/
theorem collect_no_dup_titles :
    (∀ (toks raws : List LC),
        List.Pairwise (fun a b => plower a.1 ≠ plower b.1) (collectRecipes toks raws)) ∧
      collectRecipes [] [("title: Soup".toList), ("title: soup".toList)] =
        [("Soup".toList, [], "title: Soup".toList)] := by
  constructor
  · intro toks raws
    exact collectGo_pairwise toks raws [] List.Pairwise.nil
  · decide

/-- C5: for every token set and every sequence of raw outputs the collector
returns at most 3 recipes; once the collected prefix already yields 3
recipes, any further raw outputs are ignored; and the result is a sublist of
the parsed outputs in order (first-seen order). -/
theorem collect_at_most_three :
    (∀ (toks raws : List LC), (collectRecipes toks raws).length ≤ 3) ∧
      (∀ (toks raws rest : List LC), (collectRecipes toks raws).length = 3 →
        collectRecipes toks (raws ++ rest) = collectRecipes toks raws) ∧
      (∀ (toks raws : List LC),
        (collectRecipes toks raws).Sublist (raws.map (parse_recipe_output toks))) := by
  refine ⟨?_, ?_, ?_⟩
  · intro toks raws
    exact collectGo_length_le toks raws [] (by decide)
  · intro toks raws rest h
    exact collectGo_stable toks raws [] rest (by decide) h
  · intro toks raws
    obtain ⟨l, hl, hs⟩ := collectGo_suffix toks raws []
    rw [collectRecipes, hl, List.nil_append]
    exact hs

/-- C5 witness: with four distinct-title raw outputs the collector already
holds 3 recipes, and appending a fifth raw output changes nothing. -/
theorem collect_at_most_three_witness :
    collectRecipes []
        ([("title: a".toList), ("title: b".toList), ("title: c".toList),
          ("title: d".toList)] ++ [("title: e".toList)]) =
      collectRecipes []
        [("title: a".toList), ("title: b".toList), ("title: c".toList),
          ("title: d".toList)] :=
  collect_at_most_three.2.1 []
    [("title: a".toList), ("title: b".toList), ("title: c".toList),
      ("title: d".toList)]
    [("title: e".toList)] (by decide)

/-- C2: the scan loop does not break early — for each of the three prefixes
the captured value is the remainder of the last matching line; in particular
a raw string with two `directions:` lines builds the instructions from the
last occurrence, not the first. -/
theorem scan_last_match_wins :
    (∀ lines : List LC,
        (scanFields lines).1 =
          ((lines.filter isTitleLine).getLast?).elim sUntitled titleCaptureOf) ∧
      (∀ lines : List LC,
        (scanFields lines).2.1 =
          ((lines.filter isIngLine).getLast?).elim [] captureOf) ∧
      (∀ lines : List LC,
        (scanFields lines).2.2 =
          ((lines.filter isDirLine).getLast?).elim [] captureOf) ∧
      parse_recipe_output []
          ("directions: a -- b".toList ++ '\n' :: "directions: c -- d".toList) =
        ("directions: a -- b".toList, [], "1. C\n2. D".toList) :=
  ⟨scanFields_title, scanFields_ing, scanFields_dir, by decide⟩

/-- C10: the first-line title fallback is triggered by the sentinel value:
whenever the last `title:` line of the cleaned input has an empty remainder
or the remainder `"Untitled Recipe"` itself, the returned title is the first
non-empty line truncated to 80 characters. -/
theorem title_sentinel_fallback (toks : List LC) (raw : LC) (l : LC)
    (hl : ((linesOf toks raw).filter isTitleLine).getLast? = some l)
    (hrem : captureOf l = [] ∨ captureOf l = sUntitled) :
    (parse_recipe_output toks raw).1 = ((linesOf toks raw).headD []).take 80 := by
  have hcap : titleCaptureOf l = sUntitled := by
    unfold titleCaptureOf
    cases hrem with
    | inl h => simp [h]
    | inr h => simp [h, sUntitled]
  have hfst : (scanFields (linesOf toks raw)).1 = sUntitled := by
    rw [scanFields_title, hl]
    simpa using hcap
  have hne : (linesOf toks raw).isEmpty = false := by
    cases he : linesOf toks raw with
    | nil =>
      rw [he] at hl
      simp at hl
    | cons x xs => rfl
  unfold parse_recipe_output
  simp only [hne, Bool.false_eq_true, if_false]
  rw [if_pos hfst]
  rw [List.take_take]
  rfl

/-- C10 witness: the single line `"title: Untitled Recipe"` has the sentinel
remainder, so the whole first line — prefix included — becomes the title. -/
theorem title_sentinel_fallback_witness :
    (parse_recipe_output [] ("title: Untitled Recipe".toList)).1 =
      "title: Untitled Recipe".toList :=
  (title_sentinel_fallback [] ("title: Untitled Recipe".toList)
      ("title: Untitled Recipe".toList) (by decide) (Or.inr (by decide))).trans
    (by decide)

/-- C1: a raw candidate consisting of a `title: X` line, an
`ingredients: A -- B` line and a `directions: s1 -- s2` line (with the
fields well-formed: stripped, non-empty, free of newlines, double hyphens
and special tokens, the title not the sentinel and within the caps) parses
to the title `X`, the description `"Ingredients: A, B"` and the numbered
instructions `"1. S1\n2. S2"` (segments capitalized). -/
theorem parse_three_marker_lines (toks : List LC) (X A B s1 s2 : LC)
    (hXs : pstrip X = X) (hXne : X ≠ []) (hXlen : X.length ≤ 80)
    (hXnl : '\n' ∉ X) (hXsent : X ≠ sUntitled)
    (hAs : pstrip A = A) (hAne : A ≠ []) (hAnl : '\n' ∉ A)
    (hAdd : containsSub sDashDash A = false) (hAcap : pcapitalize A = A)
    (hBs : pstrip B = B) (hBne : B ≠ []) (hBnl : '\n' ∉ B)
    (hBdd : containsSub sDashDash B = false) (hBcap : pcapitalize B = B)
    (h1s : pstrip s1 = s1) (h1ne : s1 ≠ []) (h1nl : '\n' ∉ s1)
    (h1dd : containsSub sDashDash s1 = false)
    (h2s : pstrip s2 = s2) (h2ne : s2 ≠ []) (h2nl : '\n' ∉ s2)
    (h2dd : containsSub sDashDash s2 = false)
    (hdesc : (sIngrLabel ++ (A ++ (sCommaSp ++ B))).length ≤ 200)
    (hclean : cleanSpecialTokens toks (mkThreeLineRaw X A B s1 s2) =
      mkThreeLineRaw X A B s1 s2) :
    parse_recipe_output toks (mkThreeLineRaw X A B s1 s2) =
      (X, sIngrLabel ++ (A ++ (sCommaSp ++ B)),
        "1. ".toList ++ (pcapitalize s1 ++ '\n' :: ("2. ".toList ++ pcapitalize s2))) := by
  have hXdr := (pstrip_eq_self_iff.mp hXs).2
  have hAdw := (pstrip_eq_self_iff.mp hAs).1
  have hBdr := (pstrip_eq_self_iff.mp hBs).2
  have h1dw := (pstrip_eq_self_iff.mp h1s).1
  have h2dr := (pstrip_eq_self_iff.mp h2s).2
  have hXie : X.isEmpty = false := by
    cases X with
    | nil => exact absurd rfl hXne
    | cons a t => rfl
  have hAie : A.isEmpty = false := by
    cases A with
    | nil => exact absurd rfl hAne
    | cons a t => rfl
  have hBie : B.isEmpty = false := by
    cases B with
    | nil => exact absurd rfl hBne
    | cons a t => rfl
  have h1ie : s1.isEmpty = false := by
    cases s1 with
    | nil => exact absurd rfl h1ne
    | cons a t => rfl
  have h2ie : s2.isEmpty = false := by
    cases s2 with
    | nil => exact absurd rfl h2ne
    | cons a t => rfl
  have hl1 : pstrip ("title: ".toList ++ X) = "title: ".toList ++ X :=
    pstrip_append_of (by decide) hXne (by decide) hXdr
  have hrev2 : (A ++ (sSpDashSp ++ B)).reverse
      = B.reverse ++ (sSpDashSp.reverse ++ A.reverse) := by
    rw [List.reverse_append, List.reverse_append, List.append_assoc]
  have hbody2 : List.dropWhile pIsSpace (A ++ (sSpDashSp ++ B)).reverse
      = (A ++ (sSpDashSp ++ B)).reverse := by
    rw [hrev2]
    exact dropWhile_append_eq_self (by simp [hBne]) hBdr
  have hl2 : pstrip ("ingredients: ".toList ++ (A ++ (sSpDashSp ++ B)))
      = "ingredients: ".toList ++ (A ++ (sSpDashSp ++ B)) :=
    pstrip_append_of (by decide) (by simp [hAne]) (by decide) hbody2
  have hrev3 : (s1 ++ (sSpDashSp ++ s2)).reverse
      = s2.reverse ++ (sSpDashSp.reverse ++ s1.reverse) := by
    rw [List.reverse_append, List.reverse_append, List.append_assoc]
  have hbody3 : List.dropWhile pIsSpace (s1 ++ (sSpDashSp ++ s2)).reverse
      = (s1 ++ (sSpDashSp ++ s2)).reverse := by
    rw [hrev3]
    exact dropWhile_append_eq_self (by simp [h2ne]) h2dr
  have hl3 : pstrip ("directions: ".toList ++ (s1 ++ (sSpDashSp ++ s2)))
      = "directions: ".toList ++ (s1 ++ (sSpDashSp ++ s2)) :=
    pstrip_append_of (by decide) (by simp [h1ne]) (by decide) hbody3
  have hn1 : '\n' ∉ "title: ".toList ++ X := by
    simp only [List.mem_append, not_or]
    exact ⟨by decide, hXnl⟩
  have hn2 : '\n' ∉ "ingredients: ".toList ++ (A ++ (sSpDashSp ++ B)) := by
    simp only [List.mem_append, not_or]
    exact ⟨by decide, hAnl, by decide, hBnl⟩
  have hn3 : '\n' ∉ "directions: ".toList ++ (s1 ++ (sSpDashSp ++ s2)) := by
    simp only [List.mem_append, not_or]
    exact ⟨by decide, h1nl, by decide, h2nl⟩
  have hie1 : ("title: ".toList ++ X).isEmpty = false := rfl
  have hie2 : ("ingredients: ".toList ++ (A ++ (sSpDashSp ++ B))).isEmpty = false := rfl
  have hie3 : ("directions: ".toList ++ (s1 ++ (sSpDashSp ++ s2))).isEmpty = false := rfl
  have hlines : linesOf toks (mkThreeLineRaw X A B s1 s2) =
      [("title: ".toList ++ X),
        ("ingredients: ".toList ++ (A ++ (sSpDashSp ++ B))),
        ("directions: ".toList ++ (s1 ++ (sSpDashSp ++ s2)))] := by
    unfold linesOf
    rw [hclean]
    rw [show mkThreeLineRaw X A B s1 s2 =
      ("title: ".toList ++ X) ++
        '\n' :: (("ingredients: ".toList ++ (A ++ (sSpDashSp ++ B))) ++
          '\n' :: ("directions: ".toList ++ (s1 ++ (sSpDashSp ++ s2)))) from rfl]
    rw [psplitNl_append _ hn1, psplitNl_append _ hn2, psplitNl_of_not_mem hn3]
    simp only [List.map_cons, List.map_nil, hl1, hl2, hl3]
    simp only [List.filter_cons, List.filter_nil, hie1, hie2, hie3,
      Bool.not_false, if_true]
  have hsf1 : (scanFields
      [("title: ".toList ++ X),
        ("ingredients: ".toList ++ (A ++ (sSpDashSp ++ B))),
        ("directions: ".toList ++ (s1 ++ (sSpDashSp ++ s2)))]).1 = X := by
    rw [scanFields_title]
    simp only [List.filter_cons, List.filter_nil, isTitleLine_title,
      isTitleLine_ing, isTitleLine_dir, if_true, Bool.false_eq_true, if_false]
    show titleCaptureOf ("title: ".toList ++ X) = X
    unfold titleCaptureOf
    rw [captureOf_title, pstrip_cons_space (by decide), hXs, hXie]
    simp
  have hsf2 : (scanFields
      [("title: ".toList ++ X),
        ("ingredients: ".toList ++ (A ++ (sSpDashSp ++ B))),
        ("directions: ".toList ++ (s1 ++ (sSpDashSp ++ s2)))]).2.1
      = A ++ (sSpDashSp ++ B) := by
    rw [scanFields_ing]
    simp only [List.filter_cons, List.filter_nil, isIngLine_title,
      isIngLine_ing, isIngLine_dir, if_true, Bool.false_eq_true, if_false]
    show captureOf ("ingredients: ".toList ++ (A ++ (sSpDashSp ++ B)))
      = A ++ (sSpDashSp ++ B)
    rw [captureOf_ing, pstrip_cons_space (by decide)]
    exact pstrip_append_of hAne (by simp [sSpDashSp]) hAdw
      (by rw [List.reverse_append]
          exact dropWhile_append_eq_self (by simp [hBne]) hBdr)
  have hsf3 : (scanFields
      [("title: ".toList ++ X),
        ("ingredients: ".toList ++ (A ++ (sSpDashSp ++ B))),
        ("directions: ".toList ++ (s1 ++ (sSpDashSp ++ s2)))]).2.2
      = s1 ++ (sSpDashSp ++ s2) := by
    rw [scanFields_dir]
    simp only [List.filter_cons, List.filter_nil, isDirLine_title,
      isDirLine_ing, isDirLine_dir, if_true, Bool.false_eq_true, if_false]
    show captureOf ("directions: ".toList ++ (s1 ++ (sSpDashSp ++ s2)))
      = s1 ++ (sSpDashSp ++ s2)
    rw [captureOf_dir, pstrip_cons_space (by decide)]
    exact pstrip_append_of h1ne (by simp [sSpDashSp]) h1dw
      (by rw [List.reverse_append]
          exact dropWhile_append_eq_self (by simp [h2ne]) h2dr)
  have hsplitIng : splitSegs (A ++ (sSpDashSp ++ B)) = [A, B] := by
    unfold splitSegs
    rw [show A ++ (sSpDashSp ++ B) = (A ++ [' ']) ++ '-' :: '-' :: (' ' :: B) from by
      rw [List.append_assoc]; rfl]
    have hA' : containsSub sDashDash (A ++ [' ']) = false :=
      containsSub_dd_append_of hAdd (by decide) (Or.inr (by decide))
    have hA'' : containsSub sDashDash ((A ++ [' ']) ++ ['-']) = false :=
      containsSub_dd_append_of hA' (by decide)
        (Or.inl (by rw [List.getLast?_concat]; decide))
    rw [psplitSep_append _ _ hA'']
    have hB' : containsSub sDashDash (' ' :: B) = false := by
      rw [containsSub_cons, dd_not_prefix_of_head (by decide)]
      simp [hBdd]
    rw [psplitSep_of_not_contains hB']
    have hstrip1 : pstrip (A ++ [' ']) = A := by
      rw [pstrip_concat_space (by decide), hAs]
    have hstrip2 : pstrip (' ' :: B) = B := by
      rw [pstrip_cons_space (by decide), hBs]
    simp only [List.filter_cons, List.filter_nil, List.map_cons, List.map_nil,
      hstrip1, hstrip2, hAie, hBie, Bool.not_false, if_true, hAcap, hBcap]
  have hsplitDir : splitSegs (s1 ++ (sSpDashSp ++ s2))
      = [pcapitalize s1, pcapitalize s2] := by
    unfold splitSegs
    rw [show s1 ++ (sSpDashSp ++ s2) = (s1 ++ [' ']) ++ '-' :: '-' :: (' ' :: s2) from by
      rw [List.append_assoc]; rfl]
    have h1' : containsSub sDashDash (s1 ++ [' ']) = false :=
      containsSub_dd_append_of h1dd (by decide) (Or.inr (by decide))
    have h1'' : containsSub sDashDash ((s1 ++ [' ']) ++ ['-']) = false :=
      containsSub_dd_append_of h1' (by decide)
        (Or.inl (by rw [List.getLast?_concat]; decide))
    rw [psplitSep_append _ _ h1'']
    have h2' : containsSub sDashDash (' ' :: s2) = false := by
      rw [containsSub_cons, dd_not_prefix_of_head (by decide)]
      simp [h2dd]
    rw [psplitSep_of_not_contains h2']
    have hstrip1 : pstrip (s1 ++ [' ']) = s1 := by
      rw [pstrip_concat_space (by decide), h1s]
    have hstrip2 : pstrip (' ' :: s2) = s2 := by
      rw [pstrip_cons_space (by decide), h2s]
    simp only [List.filter_cons, List.filter_nil, List.map_cons, List.map_nil,
      hstrip1, hstrip2, h1ie, h2ie, Bool.not_false, if_true]
  have hIngIE : (A ++ (sSpDashSp ++ B)).isEmpty = false := by
    cases A with
    | nil => exact absurd rfl hAne
    | cons a t => rfl
  have hDirIE : (s1 ++ (sSpDashSp ++ s2)).isEmpty = false := by
    cases s1 with
    | nil => exact absurd rfl h1ne
    | cons a t => rfl
  simp only [parse_recipe_output]
  rw [hlines]
  simp only [List.isEmpty_cons, Bool.false_eq_true, if_false]
  rw [hsf1, hsf2, hsf3]
  rw [if_neg hXsent]
  simp only [hIngIE, hDirIE, Bool.false_eq_true, if_false]
  rw [hsplitIng, hsplitDir]
  simp only [List.isEmpty_cons, Bool.false_eq_true, if_false]
  rw [show ([A, B].take 6) = [A, B] from rfl, intercalate_pair, numberSteps_pair]
  rw [List.take_of_length_le hXlen, List.take_of_length_le hdesc]

/-- C1 witness: with the real special tokens and the concrete candidate
`"title: X\ningredients: A -- B\ndirections: step1 -- step2"`, the parse is
`("X", "Ingredients: A, B", "1. Step1\n2. Step2")`. -/
theorem parse_three_marker_lines_witness :
    parse_recipe_output [("<pad>".toList), ("</s>".toList), ("<unk>".toList)]
        (mkThreeLineRaw ("X".toList) ("A".toList) ("B".toList)
          ("step1".toList) ("step2".toList)) =
      ("X".toList, "Ingredients: A, B".toList, "1. Step1\n2. Step2".toList) :=
  (parse_three_marker_lines
      [("<pad>".toList), ("</s>".toList), ("<unk>".toList)]
      ("X".toList) ("A".toList) ("B".toList) ("step1".toList) ("step2".toList)
      (by decide) (by decide) (by decide) (by decide) (by decide)
      (by decide) (by decide) (by decide) (by decide) (by decide)
      (by decide) (by decide) (by decide) (by decide) (by decide)
      (by decide) (by decide) (by decide) (by decide)
      (by decide) (by decide) (by decide) (by decide)
      (by decide) (by decide)).trans (by decide)

end Grocify
